import Mathlib

/-!
Verification of the iCalendar encoder of the postgang repository
(`src/calendar.rs`, with supporting types from `src/bring_client`).

Content lines are modelled as UTF-8 byte sequences (`List Nat`), since the
folding algorithm of the source operates on the byte representation of
strings.  Dates mirror chrono's `NaiveDate` as explicit year/month/day
records, timestamps mirror `DateTime<Utc>` with calendar date plus
hour/minute/second.  The two lazy iterators of the source are modelled as
explicit step functions on their state types; their materialisation uses a
fuel argument equal to the exact number of items the iterator produces.
-/

/-- UTF-8 encoding of one character (code point), as byte values. -/
def charBytes (c : Char) : List Nat :=
  let n := c.toNat
  if n < 0x80 then [n]
  else if n < 0x800 then [0xC0 + n / 0x40, 0x80 + n % 0x40]
  else if n < 0x10000 then
    [0xE0 + n / 0x1000, 0x80 + (n / 0x40) % 0x40, 0x80 + n % 0x40]
  else
    [0xF0 + n / 0x40000, 0x80 + (n / 0x1000) % 0x40, 0x80 + (n / 0x40) % 0x40,
      0x80 + n % 0x40]

/-- UTF-8 bytes of a string. -/
def strBytes (s : String) : List Nat :=
  (s.data.map charBytes).flatten

/-- Decimal digits of a natural number, as ASCII byte values; the first
argument is fuel (the recursion is on the magnitude of the number). -/
def decDigitsAux : Nat → Nat → List Nat
  | 0, _ => []
  | fuel + 1, n =>
    if n < 10 then [48 + n] else decDigitsAux fuel (n / 10) ++ [48 + n % 10]

/-- ASCII decimal representation of a natural number (no padding), modelling
Rust's `Display` for unsigned integers. -/
def decDigits (n : Nat) : List Nat := decDigitsAux (n + 1) n

/-- Left-pad a digit string with ASCII zeros to a minimum width, modelling a
width-w zero-padding format such as Rust's `{:04}`. -/
def padZeros (w : Nat) (ds : List Nat) : List Nat :=
  List.replicate (w - ds.length) 48 ++ ds

/-- Formats a signed value zero-padded to a minimum width, as chrono's
numeric year formatting does: a leading minus sign for negative years,
digits zero-padded to the width. -/
def formatIntPadded (w : Nat) (v : Int) : List Nat :=
  if v < 0 then 45 :: padZeros w (decDigits v.natAbs)
  else padZeros w (decDigits v.toNat)

/-- Model of chrono's `NaiveDate`: a calendar date with no time component. -/
structure NaiveDate where
  year : Int
  month : Nat
  day : Nat
deriving DecidableEq

/-- Gregorian leap-year rule. -/
def isLeapYear (y : Int) : Bool :=
  y.emod 4 = 0 && (y.emod 100 ≠ 0 || y.emod 400 = 0)

/-- Number of days in a month of a given year. -/
def daysInMonth (y : Int) (m : Nat) : Nat :=
  if m = 2 then (if isLeapYear y then 29 else 28)
  else if m = 4 ∨ m = 6 ∨ m = 9 ∨ m = 11 then 30
  else 31

/-- The day after a date; models `date + Duration::days(1)` of chrono for
in-range dates. -/
def NaiveDate.succ (d : NaiveDate) : NaiveDate :=
  if d.day < daysInMonth d.year d.month then ⟨d.year, d.month, d.day + 1⟩
  else if d.month < 12 then ⟨d.year, d.month + 1, 1⟩
  else ⟨d.year + 1, 1, 1⟩

/-- Days since 1970-01-01 (Howard Hinnant's civil-from-days inverse),
used to compute the weekday exactly as chrono does. -/
def NaiveDate.daysFromEpoch (d : NaiveDate) : Int :=
  let y : Int := if d.month ≤ 2 then d.year - 1 else d.year
  let era : Int := Int.fdiv y 400
  let yoe : Nat := (y - era * 400).toNat
  let mp : Nat := (d.month + 9) % 12
  let doy : Nat := (153 * mp + 2) / 5 + d.day - 1
  let doe : Nat := yoe * 365 + yoe / 4 - yoe / 100 + doy
  era * 146097 + (doe : Int) - 719468

/-- Model of chrono's `Weekday`. -/
inductive Weekday where
  | Mon | Tue | Wed | Thu | Fri | Sat | Sun
deriving DecidableEq

/-- Weekday of a date (1970-01-01 was a Thursday). -/
def NaiveDate.weekday (d : NaiveDate) : Weekday :=
  match ((d.daysFromEpoch + 3).emod 7).toNat with
  | 0 => .Mon
  | 1 => .Tue
  | 2 => .Wed
  | 3 => .Thu
  | 4 => .Fri
  | 5 => .Sat
  | _ => .Sun

/-- Norwegian weekday name of a date; direct translation of `fn weekday` in
`calendar.rs`. -/
def weekday (date : NaiveDate) : List Nat :=
  match date.weekday with
  | .Mon => strBytes "mandag"
  | .Tue => strBytes "tirsdag"
  | .Wed => strBytes "onsdag"
  | .Thu => strBytes "torsdag"
  | .Fri => strBytes "fredag"
  | .Sat => strBytes "lørdag"
  | .Sun => strBytes "søndag"

/-- Model of `DateTime<Utc>`: a calendar date with a time of day. -/
structure Timestamp where
  date : NaiveDate
  hour : Nat
  minute : Nat
  second : Nat
deriving DecidableEq

/-- `format_naive_date` of `calendar.rs`: strftime `%Y%m%d`. -/
def format_naive_date (d : NaiveDate) : List Nat :=
  formatIntPadded 4 d.year ++ padZeros 2 (decDigits d.month) ++
    padZeros 2 (decDigits d.day)

/-- `format_timestamp` of `calendar.rs`: strftime `%Y%m%dT%H%M%SZ`. -/
def format_timestamp (t : Timestamp) : List Nat :=
  format_naive_date t.date ++ [84] ++ padZeros 2 (decDigits t.hour) ++
    padZeros 2 (decDigits t.minute) ++ padZeros 2 (decDigits t.second) ++ [90]

/-- chrono's `Display` for `NaiveDate` (as used by `format!("{date}")` in the
UID line): `%Y-%m-%d`. -/
def displayDate (d : NaiveDate) : List Nat :=
  formatIntPadded 4 d.year ++ [45] ++ padZeros 2 (decDigits d.month) ++ [45] ++
    padZeros 2 (decDigits d.day)

/-- `NorwegianPostalCode` of `bring_client`: a `u16` value constructed from a
4-digit string, so at most 9999. -/
structure NorwegianPostalCode where
  val : Nat
deriving DecidableEq

/-- `Display` for `NorwegianPostalCode`: `{:04}`. -/
def NorwegianPostalCode.display (pc : NorwegianPostalCode) : List Nat :=
  padZeros 4 (decDigits pc.val)

/-- `DeliveryDate` as used by `calendar.rs`: a postal code and a date. -/
structure DeliveryDate where
  postal_code : NorwegianPostalCode
  date : NaiveDate
deriving DecidableEq

/-- `Calendar` of `calendar.rs`: the ordered delivery dates and the optional
fixed creation timestamp. -/
structure Calendar where
  delivery_dates : List DeliveryDate
  created : Option Timestamp
deriving DecidableEq

example : strBytes "AZø" = [65, 90, 195, 184] := by decide
example : decDigits 7800 = [55, 56, 48, 48] := by decide
example : format_naive_date ⟨1970, 8, 13⟩ = strBytes "19700813" := by decide
example : NaiveDate.weekday ⟨1970, 8, 13⟩ = .Thu := by decide
example : NaiveDate.weekday ⟨2026, 10, 12⟩ = .Mon := by decide
example : NaiveDate.succ ⟨1970, 8, 13⟩ = ⟨1970, 8, 14⟩ := by decide
example : NaiveDate.succ ⟨2024, 2, 29⟩ = ⟨2024, 3, 1⟩ := by decide
example : NaiveDate.succ ⟨2023, 12, 31⟩ = ⟨2024, 1, 1⟩ := by decide
example : displayDate ⟨1970, 8, 13⟩ = strBytes "1970-08-13" := by decide

/-- The argument of `next_boundary` in `calendar.rs`: the first segment of a
content line, or a subsequent (continuation) segment. -/
inductive ContentLineToPrint where
  | First : List Nat → ContentLineToPrint
  | Subsequent : List Nat → ContentLineToPrint
deriving DecidableEq

/-- The text carried by a `ContentLineToPrint`. -/
def ContentLineToPrint.text : ContentLineToPrint → List Nat
  | .First x => x
  | .Subsequent x => x

/-- The byte budget of a `ContentLineToPrint`: `MAX_LINE` (75) for the first
segment, `MAX_LINE - 1` for continuation segments. -/
def ContentLineToPrint.budget : ContentLineToPrint → Nat
  | .First _ => 75
  | .Subsequent _ => 74

/-- `rposition` of Rust's iterators: the index of the right-most element
satisfying the guard. -/
def rposition (p : Nat → Bool) : List Nat → Option Nat
  | [] => none
  | c :: cs =>
    match rposition p cs with
    | some i => some (i + 1)
    | none => if p c then some 0 else none

/-- The guard of the backward scan in `next_boundary`: the byte is not a
UTF-8 continuation byte, i.e. not in the inclusive range 128..191. -/
def notContByte (c : Nat) : Bool := !(128 ≤ c && c < 192)

/-- `next_boundary` of `calendar.rs`: the length of the next physical
segment of a content line. -/
def next_boundary (content : ContentLineToPrint) : Nat :=
  let limit := content.budget
  let bytes := content.text
  let num_bytes := bytes.length
  if limit ≥ num_bytes then num_bytes
  else
    match rposition notContByte (bytes.take (limit + 1)) with
    | none => num_bytes
    | some 0 => num_bytes
    | some i => i

/-- Byte-level model of `self.0.replace('\n', "\\n")`: every 0x0A byte is
replaced by the two bytes 0x5C 0x6E. -/
def escapeNewlines : List Nat → List Nat
  | [] => []
  | c :: rest =>
    (if c = 10 then [92, 110] else [c]) ++ escapeNewlines rest

/-- Wrap the remaining text the way the folding loop passes it to
`next_boundary`: as `First` for the initial segment, as `Subsequent` inside
the loop. -/
def segArg (first : Bool) (content : List Nat) : ContentLineToPrint :=
  if first then .First content else .Subsequent content

/-- The folding loop of `impl fmt::Display for ContentLine`: emit the first
segment, then repeatedly CRLF, one space and the next segment, with a final
CRLF.  The fuel argument only bounds the recursion; any fuel at least the
byte length of the content gives the loop's exact behaviour (each iteration
consumes at least one byte). -/
def foldGo : Nat → Bool → List Nat → List Nat
  | fuel, first, content =>
    let b := next_boundary (segArg first content)
    if b < content.length then
      match fuel with
      | 0 => content ++ [13, 10]
      | fuel' + 1 =>
        content.take b ++ 13 :: 10 :: 32 :: foldGo fuel' false (content.drop b)
    else content ++ [13, 10]

/-- `impl fmt::Display for ContentLine`: an empty line emits nothing;
otherwise newlines are escaped and the result is folded. -/
def foldContentLine (l : List Nat) : List Nat :=
  if l = [] then []
  else foldGo (escapeNewlines l).length true (escapeNewlines l)

/-- The physical-line payloads (without CRLF terminators) produced by the
folding loop; continuation payloads carry their leading space. -/
def foldPayloadsGo : Nat → Bool → List Nat → List (List Nat)
  | fuel, first, content =>
    let b := next_boundary (segArg first content)
    let seg := content.take b
    let pay := if first then seg else 32 :: seg
    if b < content.length then
      match fuel with
      | 0 => [pay]
      | fuel' + 1 => pay :: foldPayloadsGo fuel' false (content.drop b)
    else [pay]

/-- The physical-line payloads of one logical line. -/
def foldPayloadsLine (l : List Nat) : List (List Nat) :=
  if l = [] then []
  else foldPayloadsGo (escapeNewlines l).length true (escapeNewlines l)

/-- The reconstruction operation of the round-trip property: remove every
occurrence of CRLF immediately followed by a single space from a byte
stream. -/
def removeCRLFSP : List Nat → List Nat
  | [] => []
  | [c] => [c]
  | [c, d] => [c, d]
  | c :: d :: e :: rest =>
    if c = 13 ∧ d = 10 ∧ e = 32 then removeCRLFSP rest
    else c :: removeCRLFSP (d :: e :: rest)

example : foldContentLine (strBytes "123456789 123456789 123456789 123456789 123456789 123456789 123456789 123456789 ")
    = strBytes "123456789 123456789 123456789 123456789 123456789 123456789 123456789 12345\r\n 6789 \r\n" := by
  decide
example : foldContentLine (strBytes "123456789 123456789 123456789 123456789 123456789 123456789 123456789 12345")
    = strBytes "123456789 123456789 123456789 123456789 123456789 123456789 123456789 12345\r\n" := by
  decide
example : foldContentLine (strBytes "A\nnna") = strBytes "A\\nnna\r\n" := by decide
example : foldContentLine (strBytes "") = [] := by decide
example : foldContentLine (strBytes "A☣️☣️☣️☣️☣️☣️☣️☣️☣️☣️☣️☣️☣️☣️☣️☣️☣️☣️")
    = strBytes "A☣️☣️☣️☣️☣️☣️☣️☣️☣️☣️☣️☣️\r\n ☣️☣️☣️☣️☣️☣️\r\n" := by decide
example : removeCRLFSP (strBytes "ab\r\n cd\r\n") = strBytes "abcd\r\n" := by decide

/-- `DeliveryDateIteratorState` of `calendar.rs`. -/
inductive DeliveryDateIteratorState where
  | Begin | DtEnd | DtStamp | DtStart | Summary | Transp | Uid | Url | End | Done
deriving DecidableEq

/-- `DeliveryDateIteratorState::next`: the successor state, or none at
`Done`. -/
def DeliveryDateIteratorState.next : DeliveryDateIteratorState →
    Option DeliveryDateIteratorState
  | .Begin => some .DtEnd
  | .DtEnd => some .DtStamp
  | .DtStamp => some .DtStart
  | .DtStart => some .Summary
  | .Summary => some .Transp
  | .Transp => some .Uid
  | .Uid => some .Url
  | .Url => some .End
  | .End => some .Done
  | .Done => none

/-- Number of items the event iterator still produces from a state. -/
def DeliveryDateIteratorState.steps : DeliveryDateIteratorState → Nat
  | .Begin => 9
  | .DtEnd => 8
  | .DtStamp => 7
  | .DtStart => 6
  | .Summary => 5
  | .Transp => 4
  | .Uid => 3
  | .Url => 2
  | .End => 1
  | .Done => 0

/-- `DeliveryDateIterator` of `calendar.rs`. -/
structure DeliveryDateIterator where
  delivery_date : DeliveryDate
  created : Option Timestamp
  state : DeliveryDateIteratorState
deriving DecidableEq

/-- `DeliveryDateIterator::new`. -/
def DeliveryDateIterator.new (delivery_date : DeliveryDate)
    (created : Option Timestamp) : DeliveryDateIterator :=
  ⟨delivery_date, created, .Begin⟩

/-- The `BEGIN:VEVENT` line. -/
def beginVeventLine : List Nat := strBytes "BEGIN:VEVENT"

/-- The `DTEND` line of an event: the date plus one day, `%Y%m%d`. -/
def dtEndLine (v : DeliveryDate) : List Nat :=
  strBytes "DTEND;VALUE=DATE:" ++ format_naive_date v.date.succ

/-- The `DTSTAMP` line: the calendar's fixed creation timestamp if present,
otherwise the current instant (`now`). -/
def dtStampLine (created : Option Timestamp) (now : Timestamp) : List Nat :=
  strBytes "DTSTAMP:" ++ format_timestamp (created.getD now)

/-- The `DTSTART` line of an event: the date, `%Y%m%d`. -/
def dtStartLine (v : DeliveryDate) : List Nat :=
  strBytes "DTSTART;VALUE=DATE:" ++ format_naive_date v.date

/-- The `SUMMARY` line of an event. -/
def summaryLine (v : DeliveryDate) : List Nat :=
  strBytes "SUMMARY:" ++ v.postal_code.display ++ strBytes ": Posten kommer " ++
    weekday v.date ++ [32] ++ decDigits v.date.day ++ [46]

/-- The `TRANSP` line. -/
def transpLine : List Nat := strBytes "TRANSP:TRANSPARENT"

/-- The `UID` line of an event. -/
def uidLine (v : DeliveryDate) : List Nat :=
  strBytes "UID:postgang-" ++ v.postal_code.display ++ [45] ++ displayDate v.date

/-- The `URL` line. -/
def urlLine : List Nat := strBytes "URL:https://www.posten.no/levering-av-post/"

/-- The `END:VEVENT` line. -/
def endVeventLine : List Nat := strBytes "END:VEVENT"

/-- `Iterator::next` for `DeliveryDateIterator`: the produced content line
(if any) and the iterator afterwards.  The `now` argument stands for the
wall-clock reading `Utc::now()` that the `DtStamp` arm performs when the
calendar has no fixed creation timestamp. -/
def DeliveryDateIterator.next (now : Timestamp) (it : DeliveryDateIterator) :
    Option (List Nat) × DeliveryDateIterator :=
  let value := it.delivery_date
  let res : Option (List Nat) :=
    match it.state with
    | .Begin => some beginVeventLine
    | .DtEnd => some (dtEndLine value)
    | .DtStamp => some (dtStampLine it.created now)
    | .DtStart => some (dtStartLine value)
    | .Summary => some (summaryLine value)
    | .Transp => some transpLine
    | .Uid => some (uidLine value)
    | .Url => some urlLine
    | .End => some endVeventLine
    | .Done => none
  (res, ⟨it.delivery_date, it.created, (it.state.next).getD it.state⟩)

/-- The nine logical lines of one event block, in emission order. -/
def eventLines (created : Option Timestamp) (now : Timestamp)
    (v : DeliveryDate) : List (List Nat) :=
  [beginVeventLine, dtEndLine v, dtStampLine created now, dtStartLine v,
    summaryLine v, transpLine, uidLine v, urlLine, endVeventLine]

/-- Materialise an event iterator: collect the lines of up to `fuel`
successive `next` calls (the iterator produces at most 9). -/
def ddToListFuel (now : Timestamp) : Nat → DeliveryDateIterator → List (List Nat)
  | 0, _ => []
  | fuel + 1, it =>
    match DeliveryDateIterator.next now it with
    | (none, _) => []
    | (some l, it') => l :: ddToListFuel now fuel it'

/-- The iterator after `n` calls to `next`. -/
def ddStepN (now : Timestamp) (it : DeliveryDateIterator) : Nat →
    DeliveryDateIterator
  | 0 => it
  | n + 1 => (DeliveryDateIterator.next now (ddStepN now it n)).2

/-- `PreambleState` of `calendar.rs`. -/
inductive PreambleState where
  | Begin | Version | ProdId | CalScale | Method
deriving DecidableEq

/-- `CalendarIteratorState` of `calendar.rs`. -/
inductive CalendarIteratorState where
  | Preamble : PreambleState → CalendarIteratorState
  | StartEvent : Nat → CalendarIteratorState
  | Event : Nat → DeliveryDateIterator → CalendarIteratorState
  | Done
deriving DecidableEq

/-- `CalendarIterator` of `calendar.rs`. -/
structure CalendarIterator where
  calendar : Calendar
  state : CalendarIteratorState
deriving DecidableEq

/-- `CalendarIterator::new`. -/
def CalendarIterator.new (calendar : Calendar) : CalendarIterator :=
  ⟨calendar, .Preamble .Begin⟩

/-- The `END:VCALENDAR` line. -/
def endVcalendarLine : List Nat := strBytes "END:VCALENDAR"

/-- `Iterator::next` for `CalendarIterator`.  The index of `StartEvent` and
`Event` is a `u8` in the source, so the index increment wraps modulo 256
(release-build semantics of `*index + 1`). -/
def CalendarIterator.next (now : Timestamp) (it : CalendarIterator) :
    Option (List Nat) × CalendarIterator :=
  match it.state with
  | .Preamble p =>
    match p with
    | .Begin => (some (strBytes "BEGIN:VCALENDAR"), ⟨it.calendar, .Preamble .Version⟩)
    | .Version => (some (strBytes "VERSION:2.0"), ⟨it.calendar, .Preamble .ProdId⟩)
    | .ProdId =>
      (some (strBytes "PRODID:-//Aasan//Aasan Postgang//EN"),
        ⟨it.calendar, .Preamble .CalScale⟩)
    | .CalScale => (some (strBytes "CALSCALE:GREGORIAN"), ⟨it.calendar, .Preamble .Method⟩)
    | .Method => (some (strBytes "METHOD:PUBLISH"), ⟨it.calendar, .StartEvent 0⟩)
  | .StartEvent index =>
    match it.calendar.delivery_dates[index]? with
    | some dd =>
      let iterator := DeliveryDateIterator.new dd it.calendar.created
      let r := DeliveryDateIterator.next now iterator
      (r.1, ⟨it.calendar, .Event index r.2⟩)
    | none => (some endVcalendarLine, ⟨it.calendar, .Done⟩)
  | .Event index iterator =>
    match DeliveryDateIterator.next now iterator with
    | (none, _) => (some [], ⟨it.calendar, .StartEvent ((index + 1) % 256)⟩)
    | (some l, iterator') => (some l, ⟨it.calendar, .Event index iterator'⟩)
  | .Done => (none, it)

/-- Number of items the calendar iterator still produces from a state (for
index values within the `u8` range and at most the record count). -/
def calMeasure (cal : Calendar) : CalendarIteratorState → Nat
  | .Preamble .Begin => 5 + 1 + 10 * cal.delivery_dates.length
  | .Preamble .Version => 4 + 1 + 10 * cal.delivery_dates.length
  | .Preamble .ProdId => 3 + 1 + 10 * cal.delivery_dates.length
  | .Preamble .CalScale => 2 + 1 + 10 * cal.delivery_dates.length
  | .Preamble .Method => 1 + 1 + 10 * cal.delivery_dates.length
  | .StartEvent i => 1 + 10 * (cal.delivery_dates.length - i)
  | .Event i inner =>
    inner.state.steps + 2 + 10 * (cal.delivery_dates.length - (i + 1))
  | .Done => 0

/-- Materialise the calendar iterator with the given fuel. -/
def calToListFuel (now : Timestamp) : Nat → CalendarIterator → List (List Nat)
  | 0, _ => []
  | fuel + 1, it =>
    match CalendarIterator.next now it with
    | (none, _) => []
    | (some l, it') => l :: calToListFuel now fuel it'

/-- All logical content lines of a calendar, in emission order: the
materialisation of `CalendarIterator` (`Calendar::iter`). -/
def calendarLines (cal : Calendar) (now : Timestamp) : List (List Nat) :=
  calToListFuel now (calMeasure cal (.Preamble .Begin)) (CalendarIterator.new cal)

/-- `impl fmt::Display for Calendar`: every content line of the iterator is
folded and the folded lines are concatenated. -/
def renderCalendar (cal : Calendar) (now : Timestamp) : List Nat :=
  ((calendarLines cal now).map foldContentLine).flatten

/-- The five preamble lines. -/
def preambleLines : List (List Nat) :=
  [strBytes "BEGIN:VCALENDAR", strBytes "VERSION:2.0",
    strBytes "PRODID:-//Aasan//Aasan Postgang//EN",
    strBytes "CALSCALE:GREGORIAN", strBytes "METHOD:PUBLISH"]

example :
    ddToListFuel ⟨⟨1970, 1, 1⟩, 0, 0, 0⟩ 9
      (DeliveryDateIterator.new ⟨⟨7530⟩, ⟨1970, 1, 1⟩⟩ none)
    = [strBytes "BEGIN:VEVENT", strBytes "DTEND;VALUE=DATE:19700102",
        strBytes "DTSTAMP:19700101T000000Z", strBytes "DTSTART;VALUE=DATE:19700101",
        strBytes "SUMMARY:7530: Posten kommer torsdag 1.", strBytes "TRANSP:TRANSPARENT",
        strBytes "UID:postgang-7530-1970-01-01",
        strBytes "URL:https://www.posten.no/levering-av-post/",
        strBytes "END:VEVENT"] := by decide

example :
    renderCalendar ⟨[], some ⟨⟨1970, 8, 13⟩, 0, 0, 0⟩⟩ ⟨⟨1970, 1, 1⟩, 0, 0, 0⟩
    = strBytes "BEGIN:VCALENDAR\r\nVERSION:2.0\r\nPRODID:-//Aasan//Aasan Postgang//EN\r\nCALSCALE:GREGORIAN\r\nMETHOD:PUBLISH\r\nEND:VCALENDAR\r\n" := by
  decide

theorem rposition_none (p : Nat → Bool) (l : List Nat) (h : rposition p l = none) :
    ∀ j, j < l.length → p (l.getD j 0) = false := by
  induction l with
  | nil => intro j hj; simp at hj
  | cons c cs ih =>
    rw [rposition] at h
    cases hcs : rposition p cs with
    | some i => rw [hcs] at h; simp at h
    | none =>
      rw [hcs] at h
      by_cases hc : p c
      · simp [hc] at h
      · intro j hj
        cases j with
        | zero => simpa using hc
        | succ j' =>
          simp only [List.getD_cons_succ]
          exact ih hcs j' (by simpa using hj)

theorem rposition_some (p : Nat → Bool) (l : List Nat) (i : Nat)
    (h : rposition p l = some i) :
    i < l.length ∧ p (l.getD i 0) = true ∧
      ∀ j, i < j → j < l.length → p (l.getD j 0) = false := by
  induction l generalizing i with
  | nil => rw [rposition] at h; simp at h
  | cons c cs ih =>
    rw [rposition] at h
    cases hcs : rposition p cs with
    | some k =>
      rw [hcs] at h
      simp only [Option.some.injEq] at h
      obtain ⟨hk1, hk2, hk3⟩ := ih k hcs
      refine ⟨?_, ?_, ?_⟩
      · simp; omega
      · rw [← h]; simpa using hk2
      · intro j hj hjlen
        cases j with
        | zero => omega
        | succ j' =>
          simp only [List.getD_cons_succ]
          exact hk3 j' (by omega) (by simpa using hjlen)
    | none =>
      rw [hcs] at h
      by_cases hc : p c
      · simp only [hc, if_true, Option.some.injEq] at h
        refine ⟨by simp; omega, ?_, ?_⟩
        · rw [← h]; simpa using hc
        · intro j hj hjlen
          cases j with
          | zero => omega
          | succ j' =>
            simp only [List.getD_cons_succ]
            exact rposition_none p cs hcs j' (by simpa using hjlen)
      · simp [hc] at h

theorem rposition_all (p : Nat → Bool) (l : List Nat) (hall : ∀ b ∈ l, p b = true)
    (hne : l ≠ []) : rposition p l = some (l.length - 1) := by
  induction l with
  | nil => exact absurd rfl hne
  | cons c cs ih =>
    rw [rposition]
    cases cs with
    | nil => simp [rposition, hall c (by simp)]
    | cons d ds =>
      rw [ih (fun b hb => hall b (List.mem_cons_of_mem _ hb)) (by simp)]
      simp

theorem next_boundary_le (x : ContentLineToPrint) :
    next_boundary x ≤ x.text.length := by
  rw [next_boundary]
  by_cases hle : x.budget ≥ x.text.length
  · simp [hle]
  · simp only [hle, if_false]
    cases hr : rposition notContByte (x.text.take (x.budget + 1)) with
    | none => simp
    | some i =>
      obtain ⟨hi, _, _⟩ := rposition_some _ _ _ hr
      rw [List.length_take] at hi
      cases i with
      | zero => simp
      | succ k => simp; omega

theorem next_boundary_eq_or_pos (x : ContentLineToPrint) :
    next_boundary x = x.text.length ∨ 1 ≤ next_boundary x := by
  rw [next_boundary]
  by_cases hle : x.budget ≥ x.text.length
  · simp [hle]
  · simp only [hle, if_false]
    cases hr : rposition notContByte (x.text.take (x.budget + 1)) with
    | none => simp
    | some i =>
      cases i with
      | zero => simp
      | succ k => right; simp

theorem next_boundary_pos (x : ContentLineToPrint)
    (h : next_boundary x < x.text.length) : 1 ≤ next_boundary x := by
  rcases next_boundary_eq_or_pos x with heq | hpos
  · omega
  · exact hpos

theorem next_boundary_full (x : ContentLineToPrint)
    (h : x.text.length ≤ x.budget) : next_boundary x = x.text.length := by
  rw [next_boundary]
  simp [Nat.le_of_lt, h]

theorem segArg_text (first : Bool) (content : List Nat) :
    (segArg first content).text = content := by
  cases first <;> rfl

theorem escapeNewlines_no10 (l : List Nat) : 10 ∉ escapeNewlines l := by
  induction l with
  | nil => simp [escapeNewlines]
  | cons c cs ih =>
    rw [escapeNewlines]
    by_cases hc : c = 10
    · simp [hc]; exact ih
    · simp [hc]; exact ⟨fun h => hc h.symm, ih⟩

theorem escapeNewlines_eq (l : List Nat) (h : 10 ∉ l) : escapeNewlines l = l := by
  induction l with
  | nil => rfl
  | cons c cs ih =>
    rw [escapeNewlines]
    have hc : c ≠ 10 := fun hc => h (hc ▸ List.mem_cons_self c cs)
    simp [hc]
    exact ih (fun hm => h (List.mem_cons_of_mem _ hm))

theorem escapeNewlines_ne_nil (l : List Nat) (h : l ≠ []) :
    escapeNewlines l ≠ [] := by
  cases l with
  | nil => exact absurd rfl h
  | cons c cs =>
    rw [escapeNewlines]
    by_cases hc : c = 10 <;> simp [hc]

theorem removeCRLFSP_cons2 (x d : Nat) (rest : List Nat) (hd : d ≠ 10) :
    removeCRLFSP (x :: d :: rest) = x :: removeCRLFSP (d :: rest) := by
  cases rest with
  | nil => rfl
  | cons e rest2 =>
    rw [removeCRLFSP]
    rw [if_neg]
    intro hcond
    exact hd hcond.2.1

theorem removeCRLFSP_break (xs rest : List Nat) (h10 : 10 ∉ xs) :
    removeCRLFSP (xs ++ 13 :: 10 :: 32 :: rest) = xs ++ removeCRLFSP rest := by
  induction xs with
  | nil => simp [removeCRLFSP]
  | cons x xs' ih =>
    have htail : 10 ∉ xs' := fun hm => h10 (List.mem_cons_of_mem _ hm)
    cases xs' with
    | nil =>
      simp only [List.nil_append, List.cons_append]
      rw [removeCRLFSP_cons2 x 13 _ (by omega)]
      simp [removeCRLFSP]
    | cons y ys =>
      have hy : y ≠ 10 := by
        intro hy
        exact h10 (by simp [hy])
      simp only [List.cons_append]
      rw [removeCRLFSP_cons2 x y _ hy]
      rw [← List.cons_append, ih htail]
      rfl

theorem removeCRLFSP_final (xs : List Nat) (h10 : 10 ∉ xs) :
    removeCRLFSP (xs ++ [13, 10]) = xs ++ [13, 10] := by
  induction xs with
  | nil => rfl
  | cons x xs' ih =>
    have htail : 10 ∉ xs' := fun hm => h10 (List.mem_cons_of_mem _ hm)
    cases xs' with
    | nil =>
      simp only [List.nil_append, List.cons_append]
      rw [removeCRLFSP_cons2 x 13 _ (by omega)]
      rfl
    | cons y ys =>
      have hy : y ≠ 10 := by
        intro hy
        exact h10 (by simp [hy])
      simp only [List.cons_append]
      rw [removeCRLFSP_cons2 x y _ hy]
      rw [← List.cons_append, ih htail]

theorem foldGo_roundtrip (fuel : Nat) :
    ∀ (first : Bool) (content : List Nat), 10 ∉ content →
      content.length ≤ fuel →
      removeCRLFSP (foldGo fuel first content) = content ++ [13, 10] := by
  induction fuel with
  | zero =>
    intro first content h10 hlen
    have hnil : content = [] := List.length_eq_zero.mp (by omega)
    subst hnil
    cases first <;> decide
  | succ f ih =>
    intro first content h10 hlen
    rw [foldGo]
    by_cases hb : next_boundary (segArg first content) < content.length
    · simp only [hb, if_true]
      have h1 : 1 ≤ next_boundary (segArg first content) :=
        next_boundary_pos _ (by rwa [segArg_text])
      rw [removeCRLFSP_break _ _ (fun hm => h10 (List.take_subset _ _ hm))]
      rw [ih false _ (fun hm => h10 (List.drop_subset _ _ hm))
        (by rw [List.length_drop]; omega)]
      rw [← List.append_assoc, List.take_append_drop]
    · simp only [hb, if_false]
      exact removeCRLFSP_final _ h10

theorem foldPayloadsGo_join (fuel : Nat) :
    ∀ (first : Bool) (content : List Nat), content.length ≤ fuel →
      ((foldPayloadsGo fuel first content).map (fun p => p ++ [13, 10])).flatten
        = (if first then [] else [32]) ++ foldGo fuel first content := by
  induction fuel with
  | zero =>
    intro first content hlen
    have hnil : content = [] := List.length_eq_zero.mp (by omega)
    subst hnil
    cases first <;> decide
  | succ f ih =>
    intro first content hlen
    rw [foldPayloadsGo, foldGo]
    by_cases hb : next_boundary (segArg first content) < content.length
    · have h1 : 1 ≤ next_boundary (segArg first content) :=
        next_boundary_pos _ (by rwa [segArg_text])
      simp only [hb, if_true, List.map_cons, List.flatten_cons]
      rw [ih false _ (by rw [List.length_drop]; omega)]
      cases first <;> simp
    · have hble := next_boundary_le (segArg first content)
      rw [segArg_text] at hble
      have hbe : next_boundary (segArg first content) = content.length := by omega
      simp only [hb, if_false]
      rw [hbe, List.take_length]
      cases first <;> simp

theorem foldPayloadsGo_false_head (fuel : Nat) :
    ∀ (content : List Nat) (p : List Nat), p ∈ foldPayloadsGo fuel false content →
      ∃ s, p = 32 :: s := by
  induction fuel with
  | zero =>
    intro content p hp
    rw [foldPayloadsGo] at hp
    by_cases hb : next_boundary (segArg false content) < content.length <;>
      simp [hb] at hp <;> exact ⟨_, hp⟩
  | succ f ih =>
    intro content p hp
    rw [foldPayloadsGo] at hp
    by_cases hb : next_boundary (segArg false content) < content.length
    · simp only [hb, if_true, if_false, Bool.false_eq_true, List.mem_cons] at hp
      rcases hp with hp | hp
      · exact ⟨_, hp⟩
      · exact ih _ p hp
    · simp [hb] at hp
      exact ⟨_, hp⟩

theorem foldPayloadsGo_true_tail (fuel : Nat) (content : List Nat) :
    ∀ p ∈ (foldPayloadsGo fuel true content).tail, ∃ s, p = 32 :: s := by
  intro p hp
  rw [foldPayloadsGo.eq_def] at hp
  by_cases hb : next_boundary (segArg true content) < content.length
  · cases fuel with
    | zero => simp [hb] at hp
    | succ f =>
      simp only [hb, if_true] at hp
      exact foldPayloadsGo_false_head f _ p (by simpa using hp)
  · simp [hb] at hp

theorem foldContentLine_eq_flatten (l : List Nat) :
    foldContentLine l
      = ((foldPayloadsLine l).map (fun p => p ++ [13, 10])).flatten := by
  rw [foldContentLine, foldPayloadsLine]
  by_cases h : l = []
  · simp [h]
  · simp only [h, if_false]
    rw [foldPayloadsGo_join _ true _ le_rfl]
    simp

theorem foldGo_short (fuel : Nat) (content : List Nat)
    (h : content.length ≤ 75) : foldGo fuel true content = content ++ [13, 10] := by
  rw [foldGo.eq_def]
  have hb : next_boundary (segArg true content) = content.length :=
    next_boundary_full _ (by rw [segArg_text]; exact h)
  simp [hb]

theorem foldPayloadsGo_short (fuel : Nat) (content : List Nat)
    (h : content.length ≤ 75) : foldPayloadsGo fuel true content = [content] := by
  rw [foldPayloadsGo.eq_def]
  have hb : next_boundary (segArg true content) = content.length :=
    next_boundary_full _ (by rw [segArg_text]; exact h)
  simp [hb]

theorem foldContentLine_short (l : List Nat) (hne : l ≠ []) (h10 : 10 ∉ l)
    (hlen : l.length ≤ 75) :
    foldContentLine l = l ++ [13, 10] ∧ foldPayloadsLine l = [l] := by
  rw [foldContentLine, foldPayloadsLine, escapeNewlines_eq l h10]
  simp only [hne, if_false]
  exact ⟨foldGo_short _ _ hlen, foldPayloadsGo_short _ _ hlen⟩

/-- The lines an event iterator still emits from a given state: the final
segment of the event block. -/
def ddLinesFrom (st : DeliveryDateIteratorState) (created : Option Timestamp)
    (now : Timestamp) (v : DeliveryDate) : List (List Nat) :=
  (eventLines created now v).drop (9 - st.steps)

theorem ddToListFuel_done (now : Timestamp) (f : Nat) (v : DeliveryDate)
    (created : Option Timestamp) :
    ddToListFuel now f ⟨v, created, .Done⟩ = [] := by
  cases f <;> rfl

theorem ddToListFuel_eq (now : Timestamp) (v : DeliveryDate)
    (created : Option Timestamp) :
    ∀ (fuel : Nat) (st : DeliveryDateIteratorState), st.steps ≤ fuel →
      ddToListFuel now fuel ⟨v, created, st⟩ = ddLinesFrom st created now v := by
  intro fuel
  induction fuel with
  | zero =>
    intro st h
    cases st
    case Done => rfl
    all_goals simp [DeliveryDateIteratorState.steps] at h
  | succ f ih =>
    intro st h
    cases st
    case Done =>
      rw [ddToListFuel_done]
      rfl
    case Begin =>
      have hnext := ih .DtEnd
        (by simp only [DeliveryDateIteratorState.steps] at h ⊢; omega)
      simp [ddToListFuel, DeliveryDateIterator.next, DeliveryDateIteratorState.next,
        hnext, ddLinesFrom, DeliveryDateIteratorState.steps, eventLines]
    case DtEnd =>
      have hnext := ih .DtStamp
        (by simp only [DeliveryDateIteratorState.steps] at h ⊢; omega)
      simp [ddToListFuel, DeliveryDateIterator.next, DeliveryDateIteratorState.next,
        hnext, ddLinesFrom, DeliveryDateIteratorState.steps, eventLines]
    case DtStamp =>
      have hnext := ih .DtStart
        (by simp only [DeliveryDateIteratorState.steps] at h ⊢; omega)
      simp [ddToListFuel, DeliveryDateIterator.next, DeliveryDateIteratorState.next,
        hnext, ddLinesFrom, DeliveryDateIteratorState.steps, eventLines]
    case DtStart =>
      have hnext := ih .Summary
        (by simp only [DeliveryDateIteratorState.steps] at h ⊢; omega)
      simp [ddToListFuel, DeliveryDateIterator.next, DeliveryDateIteratorState.next,
        hnext, ddLinesFrom, DeliveryDateIteratorState.steps, eventLines]
    case Summary =>
      have hnext := ih .Transp
        (by simp only [DeliveryDateIteratorState.steps] at h ⊢; omega)
      simp [ddToListFuel, DeliveryDateIterator.next, DeliveryDateIteratorState.next,
        hnext, ddLinesFrom, DeliveryDateIteratorState.steps, eventLines]
    case Transp =>
      have hnext := ih .Uid
        (by simp only [DeliveryDateIteratorState.steps] at h ⊢; omega)
      simp [ddToListFuel, DeliveryDateIterator.next, DeliveryDateIteratorState.next,
        hnext, ddLinesFrom, DeliveryDateIteratorState.steps, eventLines]
    case Uid =>
      have hnext := ih .Url
        (by simp only [DeliveryDateIteratorState.steps] at h ⊢; omega)
      simp [ddToListFuel, DeliveryDateIterator.next, DeliveryDateIteratorState.next,
        hnext, ddLinesFrom, DeliveryDateIteratorState.steps, eventLines]
    case Url =>
      have hnext := ih .End
        (by simp only [DeliveryDateIteratorState.steps] at h ⊢; omega)
      simp [ddToListFuel, DeliveryDateIterator.next, DeliveryDateIteratorState.next,
        hnext, ddLinesFrom, DeliveryDateIteratorState.steps, eventLines]
    case End =>
      have hnext := ih .Done
        (by simp only [DeliveryDateIteratorState.steps] at h ⊢; omega)
      simp [ddToListFuel, DeliveryDateIterator.next, DeliveryDateIteratorState.next,
        hnext, ddLinesFrom, DeliveryDateIteratorState.steps, eventLines]

/-- The event blocks (with the trailing empty line each) from record index
`i` on, followed by the terminator line. -/
def afterEvents (cal : Calendar) (now : Timestamp) (i : Nat) : List (List Nat) :=
  ((cal.delivery_dates.drop i).map
      (fun r => eventLines cal.created now r ++ [[]])).flatten
    ++ [endVcalendarLine]

/-- The lines the calendar iterator still emits from a given state. -/
def calExpected (cal : Calendar) (now : Timestamp) :
    CalendarIteratorState → List (List Nat)
  | .Preamble .Begin => preambleLines ++ afterEvents cal now 0
  | .Preamble .Version => preambleLines.drop 1 ++ afterEvents cal now 0
  | .Preamble .ProdId => preambleLines.drop 2 ++ afterEvents cal now 0
  | .Preamble .CalScale => preambleLines.drop 3 ++ afterEvents cal now 0
  | .Preamble .Method => preambleLines.drop 4 ++ afterEvents cal now 0
  | .StartEvent i => afterEvents cal now i
  | .Event i inner =>
    ddLinesFrom inner.state cal.created now inner.delivery_date ++ [[]]
      ++ afterEvents cal now (i + 1)
  | .Done => []

/-- Reachability invariant of the calendar iterator states: in an `Event`
state the index addresses an existing record and the inner iterator carries
the calendar's creation timestamp. -/
def calStateOK (cal : Calendar) : CalendarIteratorState → Prop
  | .Event i inner => i < cal.delivery_dates.length ∧ inner.created = cal.created
  | _ => True

theorem calToListFuel_eq (now : Timestamp) (cal : Calendar)
    (h255 : cal.delivery_dates.length ≤ 255) :
    ∀ (fuel : Nat) (st : CalendarIteratorState), calStateOK cal st →
      calMeasure cal st ≤ fuel →
      calToListFuel now fuel ⟨cal, st⟩ = calExpected cal now st := by
  intro fuel
  induction fuel with
  | zero =>
    intro st hok h
    cases st with
    | Done => rfl
    | Preamble p => exfalso; cases p <;> simp [calMeasure] at h
    | StartEvent i => exfalso; rw [calMeasure] at h; omega
    | Event i inner => exfalso; rw [calMeasure] at h; omega
  | succ f ih =>
    intro st hok h
    cases st with
    | Done => rfl
    | Preamble p =>
      cases p with
      | Begin =>
        rw [calToListFuel]
        simp only [CalendarIterator.next]
        rw [ih (.Preamble .Version) (by simp [calStateOK])
          (by simp only [calMeasure] at h ⊢; omega)]
        simp [calExpected, preambleLines]
      | Version =>
        rw [calToListFuel]
        simp only [CalendarIterator.next]
        rw [ih (.Preamble .ProdId) (by simp [calStateOK])
          (by simp only [calMeasure] at h ⊢; omega)]
        simp [calExpected, preambleLines]
      | ProdId =>
        rw [calToListFuel]
        simp only [CalendarIterator.next]
        rw [ih (.Preamble .CalScale) (by simp [calStateOK])
          (by simp only [calMeasure] at h ⊢; omega)]
        simp [calExpected, preambleLines]
      | CalScale =>
        rw [calToListFuel]
        simp only [CalendarIterator.next]
        rw [ih (.Preamble .Method) (by simp [calStateOK])
          (by simp only [calMeasure] at h ⊢; omega)]
        simp [calExpected, preambleLines]
      | Method =>
        rw [calToListFuel]
        simp only [CalendarIterator.next]
        rw [ih (.StartEvent 0) (by simp [calStateOK])
          (by simp only [calMeasure] at h ⊢; omega)]
        simp [calExpected, preambleLines]
    | StartEvent i =>
      rw [calToListFuel]
      cases hdd : cal.delivery_dates[i]? with
      | some dd =>
        have hi : i < cal.delivery_dates.length := by
          by_contra hge
          rw [List.getElem?_eq_none (by omega)] at hdd
          exact Option.noConfusion hdd
        simp only [CalendarIterator.next, hdd, DeliveryDateIterator.new,
          DeliveryDateIterator.next, DeliveryDateIteratorState.next, Option.getD_some]
        rw [ih (.Event i ⟨dd, cal.created, .DtEnd⟩)
          (by simp [calStateOK]; omega)
          (by simp only [calMeasure, DeliveryDateIteratorState.steps] at h ⊢; omega)]
        have hgi : cal.delivery_dates[i] = dd := by
          rw [List.getElem?_eq_getElem hi] at hdd
          exact Option.some.inj hdd
        have hdrop : cal.delivery_dates.drop i
            = dd :: cal.delivery_dates.drop (i + 1) := by
          rw [List.drop_eq_getElem_cons hi, hgi]
        simp [calExpected, afterEvents, hdrop, ddLinesFrom,
          DeliveryDateIteratorState.steps, eventLines]
      | none =>
        have hge : cal.delivery_dates.length ≤ i := by
          by_contra hlt
          push_neg at hlt
          rw [List.getElem?_eq_getElem hlt] at hdd
          exact Option.noConfusion hdd
        simp only [CalendarIterator.next, hdd]
        rw [ih .Done (by simp [calStateOK]) (by simp only [calMeasure]; omega)]
        have hdrop : cal.delivery_dates.drop i = [] := List.drop_eq_nil_of_le hge
        simp [calExpected, afterEvents, hdrop]
    | Event i inner =>
      obtain ⟨dd, cr, st'⟩ := inner
      obtain ⟨hi, hcr⟩ := hok
      simp only at hcr
      subst hcr
      cases st' with
      | Done =>
        rw [calToListFuel]
        simp only [CalendarIterator.next, DeliveryDateIterator.next,
          DeliveryDateIteratorState.next, Option.getD_some]
        have hmod : (i + 1) % 256 = i + 1 := Nat.mod_eq_of_lt (by omega)
        rw [hmod]
        rw [ih (.StartEvent (i + 1)) (by simp [calStateOK])
          (by simp only [calMeasure, DeliveryDateIteratorState.steps] at h ⊢; omega)]
        simp [calExpected, ddLinesFrom, DeliveryDateIteratorState.steps, eventLines]
      | Begin =>
        rw [calToListFuel]
        simp only [CalendarIterator.next, DeliveryDateIterator.next,
          DeliveryDateIteratorState.next, Option.getD_some]
        rw [ih (.Event i ⟨dd, cal.created, .DtEnd⟩) (by simp [calStateOK]; omega)
          (by simp only [calMeasure, DeliveryDateIteratorState.steps] at h ⊢; omega)]
        simp [calExpected, ddLinesFrom, DeliveryDateIteratorState.steps, eventLines]
      | DtEnd =>
        rw [calToListFuel]
        simp only [CalendarIterator.next, DeliveryDateIterator.next,
          DeliveryDateIteratorState.next, Option.getD_some]
        rw [ih (.Event i ⟨dd, cal.created, .DtStamp⟩) (by simp [calStateOK]; omega)
          (by simp only [calMeasure, DeliveryDateIteratorState.steps] at h ⊢; omega)]
        simp [calExpected, ddLinesFrom, DeliveryDateIteratorState.steps, eventLines]
      | DtStamp =>
        rw [calToListFuel]
        simp only [CalendarIterator.next, DeliveryDateIterator.next,
          DeliveryDateIteratorState.next, Option.getD_some]
        rw [ih (.Event i ⟨dd, cal.created, .DtStart⟩) (by simp [calStateOK]; omega)
          (by simp only [calMeasure, DeliveryDateIteratorState.steps] at h ⊢; omega)]
        simp [calExpected, ddLinesFrom, DeliveryDateIteratorState.steps, eventLines]
      | DtStart =>
        rw [calToListFuel]
        simp only [CalendarIterator.next, DeliveryDateIterator.next,
          DeliveryDateIteratorState.next, Option.getD_some]
        rw [ih (.Event i ⟨dd, cal.created, .Summary⟩) (by simp [calStateOK]; omega)
          (by simp only [calMeasure, DeliveryDateIteratorState.steps] at h ⊢; omega)]
        simp [calExpected, ddLinesFrom, DeliveryDateIteratorState.steps, eventLines]
      | Summary =>
        rw [calToListFuel]
        simp only [CalendarIterator.next, DeliveryDateIterator.next,
          DeliveryDateIteratorState.next, Option.getD_some]
        rw [ih (.Event i ⟨dd, cal.created, .Transp⟩) (by simp [calStateOK]; omega)
          (by simp only [calMeasure, DeliveryDateIteratorState.steps] at h ⊢; omega)]
        simp [calExpected, ddLinesFrom, DeliveryDateIteratorState.steps, eventLines]
      | Transp =>
        rw [calToListFuel]
        simp only [CalendarIterator.next, DeliveryDateIterator.next,
          DeliveryDateIteratorState.next, Option.getD_some]
        rw [ih (.Event i ⟨dd, cal.created, .Uid⟩) (by simp [calStateOK]; omega)
          (by simp only [calMeasure, DeliveryDateIteratorState.steps] at h ⊢; omega)]
        simp [calExpected, ddLinesFrom, DeliveryDateIteratorState.steps, eventLines]
      | Uid =>
        rw [calToListFuel]
        simp only [CalendarIterator.next, DeliveryDateIterator.next,
          DeliveryDateIteratorState.next, Option.getD_some]
        rw [ih (.Event i ⟨dd, cal.created, .Url⟩) (by simp [calStateOK]; omega)
          (by simp only [calMeasure, DeliveryDateIteratorState.steps] at h ⊢; omega)]
        simp [calExpected, ddLinesFrom, DeliveryDateIteratorState.steps, eventLines]
      | Url =>
        rw [calToListFuel]
        simp only [CalendarIterator.next, DeliveryDateIterator.next,
          DeliveryDateIteratorState.next, Option.getD_some]
        rw [ih (.Event i ⟨dd, cal.created, .End⟩) (by simp [calStateOK]; omega)
          (by simp only [calMeasure, DeliveryDateIteratorState.steps] at h ⊢; omega)]
        simp [calExpected, ddLinesFrom, DeliveryDateIteratorState.steps, eventLines]
      | End =>
        rw [calToListFuel]
        simp only [CalendarIterator.next, DeliveryDateIterator.next,
          DeliveryDateIteratorState.next, Option.getD_some]
        rw [ih (.Event i ⟨dd, cal.created, .Done⟩) (by simp [calStateOK]; omega)
          (by simp only [calMeasure, DeliveryDateIteratorState.steps] at h ⊢; omega)]
        simp [calExpected, ddLinesFrom, DeliveryDateIteratorState.steps, eventLines]

theorem calendarLines_eq (cal : Calendar) (now : Timestamp)
    (h255 : cal.delivery_dates.length ≤ 255) :
    calendarLines cal now
      = preambleLines
        ++ (cal.delivery_dates.map
              (fun r => eventLines cal.created now r ++ [[]])).flatten
        ++ [endVcalendarLine] := by
  rw [calendarLines, CalendarIterator.new]
  rw [calToListFuel_eq now cal h255 _ _ (by simp [calStateOK]) le_rfl]
  simp [calExpected, afterEvents]

theorem getD_take (l : List Nat) : ∀ (n j : Nat), j < n →
    (l.take n).getD j 0 = l.getD j 0 := by
  induction l with
  | nil => simp
  | cons c cs ih =>
    intro n j h
    cases n with
    | zero => omega
    | succ n' =>
      cases j with
      | zero => simp
      | succ j' =>
        simp only [List.take_succ_cons, List.getD_cons_succ]
        exact ih n' j' (by omega)

/-- C2 (counterexample): folding the one-byte logical line consisting of a
raw newline and then stripping every CRLF-plus-space does not give back the
original line (the folder first escapes the newline, and the stream keeps
its final CRLF terminator). -/
theorem c2_roundtrip_counterexample :
    removeCRLFSP (foldContentLine [10]) ≠ [10] := by decide

/-- C2 (amended): stripping every CRLF-followed-by-one-space occurrence
from the concatenated physical lines of a logical line yields the
newline-escaped logical line followed by the single final CRLF terminator
(and nothing for the empty line); in particular, for logical lines with no
raw newline byte, it is exactly the original line plus the final CRLF. -/
theorem c2_roundtrip (l : List Nat) :
    removeCRLFSP (foldContentLine l)
      = if l = [] then [] else escapeNewlines l ++ [13, 10] := by
  by_cases h : l = []
  · simp [h, foldContentLine, removeCRLFSP]
  · simp only [h, if_false]
    rw [foldContentLine, if_neg h]
    exact foldGo_roundtrip _ true _ (escapeNewlines_no10 l) le_rfl

/-- C3: the boundary chosen by `next_boundary` never exceeds the text
length; when it is a proper split it is at least 1, within the byte budget,
sits on a byte that is not a UTF-8 continuation byte (so it never falls
inside a multi-byte character and slicing there cannot panic) and is the
right-most such position within the budget; and when the backward scan
finds no valid cut (no position, or only position 0), the whole remaining
text is emitted as one oversized segment. -/
theorem c3_boundary_safe (x : ContentLineToPrint) :
    next_boundary x ≤ x.text.length ∧
    (next_boundary x < x.text.length →
      1 ≤ next_boundary x ∧ next_boundary x ≤ x.budget ∧
      notContByte (x.text.getD (next_boundary x) 0) = true ∧
      ∀ j, next_boundary x < j → j ≤ x.budget →
        notContByte (x.text.getD j 0) = false) ∧
    (x.budget < x.text.length →
      (rposition notContByte (x.text.take (x.budget + 1)) = none ∨
        rposition notContByte (x.text.take (x.budget + 1)) = some 0) →
      next_boundary x = x.text.length) := by
  refine ⟨next_boundary_le x, ?_, ?_⟩
  · intro hlt
    have h1 : 1 ≤ next_boundary x := next_boundary_pos x hlt
    have hbudget : x.budget < x.text.length := by
      by_contra hge
      rw [next_boundary_full x (by omega)] at hlt
      omega
    cases hr : rposition notContByte (x.text.take (x.budget + 1)) with
    | none =>
      have hfull : next_boundary x = x.text.length := by
        simp only [next_boundary]
        rw [if_neg (by omega), hr]
      omega
    | some i =>
      cases i with
      | zero =>
        have hfull : next_boundary x = x.text.length := by
          simp only [next_boundary]
          rw [if_neg (by omega), hr]
        omega
      | succ k =>
        have hnb : next_boundary x = k + 1 := by
          simp only [next_boundary]
          rw [if_neg (by omega), hr]
          rfl
        obtain ⟨hilen, hip, hirm⟩ := rposition_some _ _ _ hr
        rw [List.length_take] at hilen
        have hkb : k + 1 ≤ x.budget := by
          have hmin := lt_min_iff.mp hilen
          omega
        rw [hnb]
        refine ⟨by omega, hkb, ?_, ?_⟩
        · rw [← getD_take x.text (x.budget + 1) _ (by omega)]
          exact hip
        · intro j hj hjb
          rw [← getD_take x.text (x.budget + 1) _ (by omega)]
          exact hirm j hj (by rw [List.length_take]; omega)
  · intro hbudget hr
    have hne : ¬ x.budget ≥ x.text.length := by omega
    simp only [next_boundary]
    rw [if_neg hne]
    rcases hr with hr | hr <;> rw [hr]

/-- C3 (witness): at a 76-byte all-ASCII line the first-segment boundary is
a proper in-budget split on a non-continuation byte. -/
theorem c3_boundary_safe_witness :
    1 ≤ next_boundary (.First (List.replicate 76 65)) ∧
    next_boundary (.First (List.replicate 76 65))
      ≤ (ContentLineToPrint.First (List.replicate 76 65)).budget ∧
    notContByte ((List.replicate 76 65).getD
      (next_boundary (.First (List.replicate 76 65))) 0) = true ∧
    ∀ j, next_boundary (.First (List.replicate 76 65)) < j →
      j ≤ (ContentLineToPrint.First (List.replicate 76 65)).budget →
      notContByte ((List.replicate 76 65).getD j 0) = false :=
  (c3_boundary_safe (.First (List.replicate 76 65))).2.1 (by decide)

/-- C4: for logical text of single-byte (ASCII) characters the folder
splits at exactly 75 bytes for the first segment and 74 bytes for every
subsequent segment; a 79-byte single-byte line with a trailing space folds
into exactly two physical lines, 75 bytes then the remainder behind one
space. -/
theorem c4_singlebyte_splits :
    (∀ content : List Nat, (∀ b ∈ content, b < 128) → 75 < content.length →
      next_boundary (.First content) = 75) ∧
    (∀ content : List Nat, (∀ b ∈ content, b < 128) → 74 < content.length →
      next_boundary (.Subsequent content) = 74) ∧
    foldContentLine (List.replicate 79 97 ++ [32])
      = List.replicate 75 97 ++ [13, 10, 32]
        ++ (List.replicate 4 97 ++ [32]) ++ [13, 10] ∧
    foldPayloadsLine (List.replicate 79 97 ++ [32])
      = [List.replicate 75 97, 32 :: (List.replicate 4 97 ++ [32])] := by
  refine ⟨?_, ?_, by decide, by decide⟩
  · intro content hall hlen
    have htake : (content.take 76).length = 76 := by
      rw [List.length_take]; omega
    have hpos := rposition_all notContByte (content.take 76)
      (fun b hb => by
        have hb128 : b < 128 := hall b (List.take_subset _ _ hb)
        simp only [notContByte, Bool.not_eq_true']
        simp only [Bool.and_eq_false_iff, decide_eq_false_iff_not]
        left; omega)
      (by intro hnil; rw [hnil] at htake; simp at htake)
    rw [next_boundary]
    simp only [ContentLineToPrint.budget, ContentLineToPrint.text]
    rw [if_neg (by omega)]
    rw [show (75 : Nat) + 1 = 76 from rfl, hpos, htake]
  · intro content hall hlen
    have htake : (content.take 75).length = 75 := by
      rw [List.length_take]; omega
    have hpos := rposition_all notContByte (content.take 75)
      (fun b hb => by
        have hb128 : b < 128 := hall b (List.take_subset _ _ hb)
        simp only [notContByte, Bool.not_eq_true']
        simp only [Bool.and_eq_false_iff, decide_eq_false_iff_not]
        left; omega)
      (by intro hnil; rw [hnil] at htake; simp at htake)
    rw [next_boundary]
    simp only [ContentLineToPrint.budget, ContentLineToPrint.text]
    rw [if_neg (by omega)]
    rw [show (74 : Nat) + 1 = 75 from rfl, hpos, htake]

/-- C4 (witness): the generic split positions at a concrete 80-byte
single-byte line. -/
theorem c4_singlebyte_splits_witness :
    next_boundary (.First (List.replicate 80 49)) = 75 ∧
    next_boundary (.Subsequent (List.replicate 80 49)) = 74 :=
  ⟨c4_singlebyte_splits.1 _ (by decide) (by decide),
    c4_singlebyte_splits.2.1 _ (by decide) (by decide)⟩

/-- C7 (counterexample): a logical line of 40 raw newline bytes has length
at most 75 but does not fold to itself plus CRLF — escaping doubles it to
80 bytes, which then even folds into two physical lines. -/
theorem c7_counterexample :
    foldContentLine (List.replicate 40 10)
      ≠ List.replicate 40 10 ++ [13, 10] := by decide

/-- C7 (amended): the empty logical line emits no physical line at all;
a nonempty logical line with no raw newline byte and length at most 75
emits exactly one physical line: the unchanged content plus CRLF. -/
theorem c7_short_line (l : List Nat) :
    foldContentLine [] = [] ∧
    (l ≠ [] → 10 ∉ l → l.length ≤ 75 →
      foldContentLine l = l ++ [13, 10] ∧ foldPayloadsLine l = [l]) :=
  ⟨rfl, fun hne h10 hlen => foldContentLine_short l hne h10 hlen⟩

/-- C7 (witness): the single byte line "A". -/
theorem c7_short_line_witness :
    foldContentLine [65] = [65] ++ [13, 10] ∧ foldPayloadsLine [65] = [[65]] :=
  (c7_short_line [65]).2 (by decide) (by decide) (by decide)

set_option maxRecDepth 100000 in
set_option maxHeartbeats 2000000 in
/-- C1: a Calendar with the single record (postal code 7800, date
1970-08-13) and fixed creation timestamp 1970-08-13T00:00:00Z renders to
exactly the preamble, the fixed event block, and the terminator, every line
CRLF-terminated; the wall clock is irrelevant because a fixed creation
timestamp is present. -/
theorem c1_single_record_render (now : Timestamp) :
    renderCalendar ⟨[⟨⟨7800⟩, ⟨1970, 8, 13⟩⟩], some ⟨⟨1970, 8, 13⟩, 0, 0, 0⟩⟩ now
      = strBytes "BEGIN:VCALENDAR\r\nVERSION:2.0\r\nPRODID:-//Aasan//Aasan Postgang//EN\r\nCALSCALE:GREGORIAN\r\nMETHOD:PUBLISH\r\nBEGIN:VEVENT\r\nDTEND;VALUE=DATE:19700814\r\nDTSTAMP:19700813T000000Z\r\nDTSTART;VALUE=DATE:19700813\r\nSUMMARY:7800: Posten kommer torsdag 13.\r\nTRANSP:TRANSPARENT\r\nUID:postgang-7800-1970-08-13\r\nURL:https://www.posten.no/levering-av-post/\r\nEND:VEVENT\r\nEND:VCALENDAR\r\n" := by
  rw [renderCalendar, calendarLines_eq _ _ (by decide)]
  simp only [List.map_cons, List.map_nil, eventLines, dtStampLine, Option.getD_some]
  decide

set_option maxRecDepth 100000 in
set_option maxHeartbeats 2000000 in
/-- C6: a Calendar with zero records renders to exactly the preamble
followed immediately by the terminator, with no event lines, whatever the
creation timestamp and the wall clock are. -/
theorem c6_empty_render (created : Option Timestamp) (now : Timestamp) :
    renderCalendar ⟨[], created⟩ now
      = strBytes "BEGIN:VCALENDAR\r\nVERSION:2.0\r\nPRODID:-//Aasan//Aasan Postgang//EN\r\nCALSCALE:GREGORIAN\r\nMETHOD:PUBLISH\r\nEND:VCALENDAR\r\n" := by
  rfl

/-- C5: a freshly constructed event iterator produces exactly the nine
logical lines of the event block, one per call, stepping through the states
Begin, DtEnd, DtStamp, DtStart, Summary, Transp, Uid, Url, End in that
order and ending in Done, after which every further call produces
nothing. -/
theorem c5_event_sequencer (v : DeliveryDate) (created : Option Timestamp)
    (now : Timestamp) :
    ddToListFuel now 9 (DeliveryDateIterator.new v created)
        = eventLines created now v
    ∧ (∀ extra, ddToListFuel now (9 + extra) (DeliveryDateIterator.new v created)
        = eventLines created now v)
    ∧ (List.range 10).map
        (fun k => (ddStepN now (DeliveryDateIterator.new v created) k).state)
      = [.Begin, .DtEnd, .DtStamp, .DtStart, .Summary, .Transp, .Uid, .Url,
          .End, .Done]
    ∧ DeliveryDateIterator.next now ⟨v, created, .Done⟩
        = (none, ⟨v, created, .Done⟩) := by
  refine ⟨?_, ?_, ?_, rfl⟩
  · have h := ddToListFuel_eq now v created 9 .Begin
      (by simp [DeliveryDateIteratorState.steps])
    rw [DeliveryDateIterator.new, h]
    simp [ddLinesFrom, DeliveryDateIteratorState.steps]
  · intro extra
    have h := ddToListFuel_eq now v created (9 + extra) .Begin
      (by simp only [DeliveryDateIteratorState.steps]; omega)
    rw [DeliveryDateIterator.new, h]
    simp [ddLinesFrom, DeliveryDateIteratorState.steps]
  · rfl

/-- chrono's `NaiveDate` type invariant: year within chrono's supported
range, month and day within calendar bounds. -/
def ValidDate (d : NaiveDate) : Prop :=
  -262144 ≤ d.year ∧ d.year ≤ 262143 ∧ 1 ≤ d.month ∧ d.month ≤ 12 ∧
    1 ≤ d.day ∧ d.day ≤ daysInMonth d.year d.month

instance (d : NaiveDate) : Decidable (ValidDate d) := by
  unfold ValidDate; infer_instance

/-- chrono's `DateTime<Utc>` type invariant. -/
def ValidTimestamp (t : Timestamp) : Prop :=
  ValidDate t.date ∧ t.hour ≤ 23 ∧ t.minute ≤ 59 ∧ t.second ≤ 59

instance (t : Timestamp) : Decidable (ValidTimestamp t) := by
  unfold ValidTimestamp; infer_instance

/-- Validity of the optional fixed creation timestamp. -/
def ValidCreated : Option Timestamp → Prop
  | none => True
  | some t => ValidTimestamp t

instance (c : Option Timestamp) : Decidable (ValidCreated c) := by
  cases c <;> unfold ValidCreated <;> infer_instance

/-- Loose numeric bounds on a date's fields, sufficient for the line-length
bounds; closed under taking the next day of a valid date. -/
def DateBounds (d : NaiveDate) : Prop :=
  d.year.natAbs ≤ 262145 ∧ d.month ≤ 12 ∧ d.day ≤ 32

theorem daysInMonth_le (y : Int) (m : Nat) : daysInMonth y m ≤ 31 := by
  rw [daysInMonth]
  split_ifs <;> omega

theorem valid_dateBounds (d : NaiveDate) (h : ValidDate d) : DateBounds d := by
  obtain ⟨h1, h2, h3, h4, h5, h6⟩ := h
  have := daysInMonth_le d.year d.month
  exact ⟨by omega, by omega, by omega⟩

theorem succ_dateBounds (d : NaiveDate) (h : ValidDate d) :
    DateBounds d.succ := by
  obtain ⟨h1, h2, h3, h4, h5, h6⟩ := h
  have hdm := daysInMonth_le d.year d.month
  rw [NaiveDate.succ]
  split_ifs with ha hb <;>
    exact ⟨by simp <;> omega, by simp <;> omega, by simp <;> omega⟩

theorem decDigitsAux_length : ∀ (fuel n k : Nat), n < fuel → n < 10 ^ k →
    1 ≤ k → (decDigitsAux fuel n).length ≤ k := by
  intro fuel
  induction fuel with
  | zero => intro n k h; omega
  | succ f ih =>
    intro n k hf hk h1
    rw [decDigitsAux]
    by_cases hn : n < 10
    · simp [hn]; omega
    · simp only [hn, if_false]
      have hk2 : 2 ≤ k := by
        by_contra hlt
        have : k = 1 := by omega
        subst this
        simp at hk
        omega
      have hdivf : n / 10 < f := by omega
      have hdivk : n / 10 < 10 ^ (k - 1) := by
        rw [Nat.div_lt_iff_lt_mul (by omega)]
        calc n < 10 ^ k := hk
        _ = 10 ^ (k - 1) * 10 := by
            rw [← pow_succ]
            congr 1
            omega
      have := ih (n / 10) (k - 1) hdivf hdivk (by omega)
      rw [List.length_append]
      simp only [List.length_cons, List.length_nil]
      omega

theorem decDigits_length (n k : Nat) (hk : n < 10 ^ k) (h1 : 1 ≤ k) :
    (decDigits n).length ≤ k :=
  decDigitsAux_length (n + 1) n k (by omega) hk h1

theorem decDigitsAux_digits : ∀ (fuel n : Nat), ∀ b ∈ decDigitsAux fuel n,
    48 ≤ b ∧ b ≤ 57 := by
  intro fuel
  induction fuel with
  | zero => intro n b hb; simp [decDigitsAux] at hb
  | succ f ih =>
    intro n b hb
    rw [decDigitsAux] at hb
    by_cases hn : n < 10
    · simp [hn] at hb
      omega
    · simp only [hn, if_false, List.mem_append, List.mem_singleton] at hb
      rcases hb with hb | hb
      · exact ih (n / 10) b hb
      · have : n % 10 < 10 := Nat.mod_lt n (by omega)
        omega

theorem decDigits_no10 (n : Nat) : 10 ∉ decDigits n := by
  intro h
  have := decDigitsAux_digits (n + 1) n 10 h
  omega

theorem padZeros_length (w : Nat) (ds : List Nat) :
    (padZeros w ds).length = max w ds.length := by
  rw [padZeros, List.length_append, List.length_replicate]
  omega

theorem padZeros_no10 (w : Nat) (ds : List Nat) (h : 10 ∉ ds) :
    10 ∉ padZeros w ds := by
  rw [padZeros]
  intro hm
  rcases List.mem_append.mp hm with hm | hm
  · have := List.eq_of_mem_replicate hm
    omega
  · exact h hm

theorem formatIntPadded_length (v : Int) (k : Nat) (hv : v.natAbs < 10 ^ k)
    (hk : 4 ≤ k) : (formatIntPadded 4 v).length ≤ k + 1 := by
  rw [formatIntPadded]
  have habs : (decDigits v.natAbs).length ≤ k :=
    decDigits_length _ _ hv (by omega)
  have htn : (decDigits v.toNat).length ≤ k := by
    apply decDigits_length _ _ _ (by omega)
    calc v.toNat ≤ v.natAbs := by omega
    _ < 10 ^ k := hv
  split_ifs with hneg
  · simp only [List.length_cons, padZeros_length]
    omega
  · rw [padZeros_length]
    omega

theorem formatIntPadded_no10 (w : Nat) (v : Int) : 10 ∉ formatIntPadded w v := by
  rw [formatIntPadded]
  split_ifs with hneg
  · intro hm
    rcases List.mem_cons.mp hm with hm | hm
    · omega
    · exact padZeros_no10 _ _ (decDigits_no10 _) hm
  · exact padZeros_no10 _ _ (decDigits_no10 _)

theorem format_naive_date_length (d : NaiveDate) (h : DateBounds d) :
    (format_naive_date d).length ≤ 11 := by
  obtain ⟨hy, hm, hd⟩ := h
  rw [format_naive_date]
  have h1 : (formatIntPadded 4 d.year).length ≤ 7 :=
    formatIntPadded_length _ 6 (by norm_num; omega) (by omega)
  have h2 : (padZeros 2 (decDigits d.month)).length = 2 := by
    rw [padZeros_length]
    have := decDigits_length d.month 2 (by norm_num; omega) (by omega)
    omega
  have h3 : (padZeros 2 (decDigits d.day)).length = 2 := by
    rw [padZeros_length]
    have := decDigits_length d.day 2 (by norm_num; omega) (by omega)
    omega
  simp only [List.length_append]
  omega

theorem format_naive_date_no10 (d : NaiveDate) : 10 ∉ format_naive_date d := by
  rw [format_naive_date]
  intro hm
  rcases List.mem_append.mp hm with hm | hm
  · rcases List.mem_append.mp hm with hm | hm
    · exact formatIntPadded_no10 _ _ hm
    · exact padZeros_no10 _ _ (decDigits_no10 _) hm
  · exact padZeros_no10 _ _ (decDigits_no10 _) hm

theorem format_timestamp_length (t : Timestamp) (h : ValidTimestamp t) :
    (format_timestamp t).length ≤ 19 := by
  obtain ⟨hdate, hh, hmin, hs⟩ := h
  rw [format_timestamp]
  have h1 : (format_naive_date t.date).length ≤ 11 :=
    format_naive_date_length _ (valid_dateBounds _ hdate)
  have h2 : (padZeros 2 (decDigits t.hour)).length = 2 := by
    rw [padZeros_length]
    have := decDigits_length t.hour 2 (by norm_num; omega) (by omega)
    omega
  have h3 : (padZeros 2 (decDigits t.minute)).length = 2 := by
    rw [padZeros_length]
    have := decDigits_length t.minute 2 (by norm_num; omega) (by omega)
    omega
  have h4 : (padZeros 2 (decDigits t.second)).length = 2 := by
    rw [padZeros_length]
    have := decDigits_length t.second 2 (by norm_num; omega) (by omega)
    omega
  simp only [List.length_append, List.length_cons, List.length_nil]
  omega

theorem format_timestamp_no10 (t : Timestamp) : 10 ∉ format_timestamp t := by
  rw [format_timestamp]
  intro hm
  simp only [List.mem_append, List.mem_singleton] at hm
  rcases hm with ((((hm | hm) | hm) | hm) | hm) | hm
  · exact format_naive_date_no10 _ hm
  · omega
  · exact padZeros_no10 _ _ (decDigits_no10 _) hm
  · exact padZeros_no10 _ _ (decDigits_no10 _) hm
  · exact padZeros_no10 _ _ (decDigits_no10 _) hm
  · omega

theorem displayDate_length (d : NaiveDate) (h : DateBounds d) :
    (displayDate d).length ≤ 13 := by
  obtain ⟨hy, hm, hd⟩ := h
  rw [displayDate]
  have h1 : (formatIntPadded 4 d.year).length ≤ 7 :=
    formatIntPadded_length _ 6 (by norm_num; omega) (by omega)
  have h2 : (padZeros 2 (decDigits d.month)).length = 2 := by
    rw [padZeros_length]
    have := decDigits_length d.month 2 (by norm_num; omega) (by omega)
    omega
  have h3 : (padZeros 2 (decDigits d.day)).length = 2 := by
    rw [padZeros_length]
    have := decDigits_length d.day 2 (by norm_num; omega) (by omega)
    omega
  simp only [List.length_append, List.length_cons, List.length_nil]
  omega

theorem displayDate_no10 (d : NaiveDate) : 10 ∉ displayDate d := by
  have h1 := formatIntPadded_no10 4 d.year
  have h2 := padZeros_no10 2 _ (decDigits_no10 d.month)
  have h3 := padZeros_no10 2 _ (decDigits_no10 d.day)
  rw [displayDate]
  intro hm
  simp only [List.mem_append, List.mem_singleton, h1, h2, h3, or_false,
    false_or] at hm
  omega

theorem postal_display_length (pc : NorwegianPostalCode) (h : pc.val ≤ 9999) :
    (pc.display).length = 4 := by
  rw [NorwegianPostalCode.display, padZeros_length]
  have := decDigits_length pc.val 4 (by norm_num; omega) (by omega)
  omega

theorem postal_display_no10 (pc : NorwegianPostalCode) : 10 ∉ pc.display :=
  padZeros_no10 _ _ (decDigits_no10 _)

theorem weekday_length_no10 (d : NaiveDate) :
    (weekday d).length ≤ 7 ∧ 10 ∉ weekday d := by
  rw [weekday]
  cases d.weekday <;> exact ⟨by decide, by decide⟩

theorem eventLines_good (created : Option Timestamp) (now : Timestamp)
    (r : DeliveryDate) (hd : ValidDate r.date) (hpc : r.postal_code.val ≤ 9999)
    (hcr : ValidCreated created) (hnow : ValidTimestamp now) :
    ∀ l ∈ eventLines created now r, l.length ≤ 75 ∧ 10 ∉ l := by
  have hb := valid_dateBounds _ hd
  have hsb := succ_dateBounds _ hd
  have hts : ValidTimestamp (created.getD now) := by
    cases created with
    | none => exact hnow
    | some t => exact hcr
  intro l hl
  simp only [eventLines, List.mem_cons, List.not_mem_nil, or_false] at hl
  rcases hl with rfl | rfl | rfl | rfl | rfl | rfl | rfl | rfl | rfl
  · exact ⟨by decide, by decide⟩
  · constructor
    · rw [dtEndLine, List.length_append]
      have h1 := format_naive_date_length _ hsb
      have hlit : (strBytes "DTEND;VALUE=DATE:").length = 17 := by decide
      omega
    · rw [dtEndLine]
      intro hm
      rcases List.mem_append.mp hm with hm | hm
      · exact absurd hm (by decide)
      · exact format_naive_date_no10 _ hm
  · constructor
    · rw [dtStampLine, List.length_append]
      have h1 := format_timestamp_length _ hts
      have hlit : (strBytes "DTSTAMP:").length = 8 := by decide
      omega
    · rw [dtStampLine]
      intro hm
      rcases List.mem_append.mp hm with hm | hm
      · exact absurd hm (by decide)
      · exact format_timestamp_no10 _ hm
  · constructor
    · rw [dtStartLine, List.length_append]
      have h1 := format_naive_date_length _ hb
      have hlit : (strBytes "DTSTART;VALUE=DATE:").length = 19 := by decide
      omega
    · rw [dtStartLine]
      intro hm
      rcases List.mem_append.mp hm with hm | hm
      · exact absurd hm (by decide)
      · exact format_naive_date_no10 _ hm
  · have hw := weekday_length_no10 r.date
    have hdisp := postal_display_length _ hpc
    have hdd : (decDigits r.date.day).length ≤ 2 := by
      obtain ⟨hb1, hb2, hb3⟩ := hb
      exact decDigits_length _ 2 (by norm_num; omega) (by omega)
    constructor
    · rw [summaryLine]
      simp only [List.length_append, List.length_cons, List.length_nil]
      have hlit1 : (strBytes "SUMMARY:").length = 8 := by decide
      have hlit2 : (strBytes ": Posten kommer ").length = 16 := by decide
      omega
    · rw [summaryLine]
      intro hm
      have hn1 : (10 : Nat) ∉ strBytes "SUMMARY:" := by decide
      have hn2 := postal_display_no10 r.postal_code
      have hn3 : (10 : Nat) ∉ strBytes ": Posten kommer " := by decide
      have hn4 := hw.2
      have hn5 := decDigits_no10 r.date.day
      simp only [List.mem_append, List.mem_singleton, hn1, hn2, hn3, hn4, hn5,
        or_false, false_or] at hm
      omega
  · exact ⟨by decide, by decide⟩
  · constructor
    · rw [uidLine]
      simp only [List.length_append, List.length_cons, List.length_nil]
      have h1 := displayDate_length _ hb
      have hdisp := postal_display_length _ hpc
      have hlit : (strBytes "UID:postgang-").length = 13 := by decide
      omega
    · rw [uidLine]
      intro hm
      have hn1 : (10 : Nat) ∉ strBytes "UID:postgang-" := by decide
      have hn2 := postal_display_no10 r.postal_code
      have hn3 := displayDate_no10 r.date
      simp only [List.mem_append, List.mem_singleton, hn1, hn2, hn3,
        or_false, false_or] at hm
      omega
  · exact ⟨by decide, by decide⟩
  · exact ⟨by decide, by decide⟩

theorem calendarLines_good (cal : Calendar) (now : Timestamp)
    (h255 : cal.delivery_dates.length ≤ 255)
    (hvalid : ∀ r ∈ cal.delivery_dates,
      ValidDate r.date ∧ r.postal_code.val ≤ 9999)
    (hcr : ValidCreated cal.created) (hnow : ValidTimestamp now) :
    ∀ l ∈ calendarLines cal now, l.length ≤ 75 ∧ 10 ∉ l := by
  rw [calendarLines_eq _ _ h255]
  intro l hl
  rw [List.mem_append] at hl
  rcases hl with hl | hl
  · rw [List.mem_append] at hl
    rcases hl with hl | hl
    · have hgood : ∀ x ∈ preambleLines, x.length ≤ 75 ∧ (10 : Nat) ∉ x := by decide
      exact hgood l hl
    · rw [List.mem_flatten] at hl
      obtain ⟨blk, hblk, hlblk⟩ := hl
      rw [List.mem_map] at hblk
      obtain ⟨r, hr, rfl⟩ := hblk
      rcases List.mem_append.mp hlblk with hm | hm
      · exact eventLines_good _ _ _ (hvalid r hr).1 (hvalid r hr).2 hcr hnow l hm
      · simp only [List.mem_singleton] at hm
        subst hm
        exact ⟨by decide, by decide⟩
  · have hgood : ∀ x ∈ [endVcalendarLine], x.length ≤ 75 ∧ (10 : Nat) ∉ x := by
      decide
    exact hgood l hl

/-- All physical-line payloads of a rendered calendar, in order. -/
def calendarPayloads (cal : Calendar) (now : Timestamp) : List (List Nat) :=
  ((calendarLines cal now).map foldPayloadsLine).flatten

theorem render_eq_payloads (cal : Calendar) (now : Timestamp) :
    renderCalendar cal now
      = ((calendarPayloads cal now).map (fun p => p ++ [13, 10])).flatten := by
  rw [renderCalendar, calendarPayloads]
  induction calendarLines cal now with
  | nil => rfl
  | cons l ls ih =>
    simp only [List.map_cons, List.flatten_cons, List.map_append,
      List.flatten_append, ih, foldContentLine_eq_flatten]

theorem calendarPayloads_le (cal : Calendar) (now : Timestamp)
    (h255 : cal.delivery_dates.length ≤ 255)
    (hvalid : ∀ r ∈ cal.delivery_dates,
      ValidDate r.date ∧ r.postal_code.val ≤ 9999)
    (hcr : ValidCreated cal.created) (hnow : ValidTimestamp now) :
    ∀ p ∈ calendarPayloads cal now, p.length ≤ 75 := by
  intro p hp
  rw [calendarPayloads, List.mem_flatten] at hp
  obtain ⟨pl, hpl, hppl⟩ := hp
  rw [List.mem_map] at hpl
  obtain ⟨l, hl, rfl⟩ := hpl
  obtain ⟨hlen, h10⟩ := calendarLines_good cal now h255 hvalid hcr hnow l hl
  by_cases hnil : l = []
  · subst hnil
    simp [foldPayloadsLine] at hppl
  · rw [(foldContentLine_short l hnil h10 hlen).2] at hppl
    simp only [List.mem_singleton] at hppl
    subst hppl
    exact hlen

/-- C8: for every calendar over well-formed data (chrono-valid dates and
timestamps, 4-digit postal codes, at most 255 records — the index is a u8),
the rendered stream is exactly a concatenation of CRLF-terminated physical
lines whose payloads are at most 75 octets; and, at the folder level, every
continuation payload of any logical line starts with one space. -/
theorem c8_physical_line_invariants (cal : Calendar) (now : Timestamp)
    (h255 : cal.delivery_dates.length ≤ 255)
    (hvalid : ∀ r ∈ cal.delivery_dates,
      ValidDate r.date ∧ r.postal_code.val ≤ 9999)
    (hcr : ValidCreated cal.created) (hnow : ValidTimestamp now) :
    renderCalendar cal now
      = ((calendarPayloads cal now).map (fun p => p ++ [13, 10])).flatten
    ∧ (∀ p ∈ calendarPayloads cal now, p.length ≤ 75)
    ∧ (∀ l : List Nat, ∀ p ∈ (foldPayloadsLine l).tail, ∃ s, p = 32 :: s) := by
  refine ⟨render_eq_payloads cal now,
    calendarPayloads_le cal now h255 hvalid hcr hnow, ?_⟩
  intro l p hp
  rw [foldPayloadsLine] at hp
  by_cases hnil : l = []
  · simp [hnil] at hp
  · rw [if_neg hnil] at hp
    exact foldPayloadsGo_true_tail _ _ p hp

/-- The concrete calendar used by witnesses: one record, fixed creation
timestamp. -/
def witCal : Calendar :=
  ⟨[⟨⟨7800⟩, ⟨1970, 8, 13⟩⟩], some ⟨⟨1970, 8, 13⟩, 0, 0, 0⟩⟩

/-- A concrete wall-clock instant used by witnesses. -/
def witNow : Timestamp := ⟨⟨1970, 1, 1⟩, 0, 0, 0⟩

/-- A second concrete wall-clock instant used by witnesses. -/
def witNow2 : Timestamp := ⟨⟨2024, 2, 29⟩, 12, 34, 56⟩

/-- C8 (witness): the invariants at the concrete one-record calendar. -/
theorem c8_physical_line_invariants_witness :
    renderCalendar witCal witNow
      = ((calendarPayloads witCal witNow).map (fun p => p ++ [13, 10])).flatten
    ∧ ∀ p ∈ calendarPayloads witCal witNow, p.length ≤ 75 :=
  ⟨(c8_physical_line_invariants witCal witNow (by decide) (by decide)
      (by decide) (by decide)).1,
    (c8_physical_line_invariants witCal witNow (by decide) (by decide)
      (by decide) (by decide)).2.1⟩

/-- The list starts with the given byte sequence. -/
def bytesStart (p l : List Nat) : Prop := l.take p.length = p

instance (p l : List Nat) : Decidable (bytesStart p l) := by
  unfold bytesStart; infer_instance

/-- The DTSTAMP property label. -/
def dtStampHdr : List Nat := strBytes "DTSTAMP:"

theorem bytesStart_hdr_append (a x : List Nat) (h : 8 ≤ a.length) :
    bytesStart dtStampHdr (a ++ x) ↔ a.take 8 = dtStampHdr := by
  rw [bytesStart, show dtStampHdr.length = 8 from rfl,
    List.take_append_eq_append_take, Nat.sub_eq_zero_of_le h, List.take_zero,
    List.append_nil]

/-- C9: rendering is deterministic whenever the calendar carries a fixed
creation timestamp t — two renderings with different wall-clock readings
are byte-identical and every DTSTAMP line equals t formatted as
YYYYMMDDTHHMMSSZ; when the timestamp is absent, two renderings differ at
most in their DTSTAMP lines (all other logical lines are pairwise
identical). -/
theorem c9_dtstamp_determinism (cal : Calendar) (t : Timestamp)
    (n1 n2 : Timestamp) (h255 : cal.delivery_dates.length ≤ 255) :
    (cal.created = some t →
      renderCalendar cal n1 = renderCalendar cal n2
      ∧ ∀ l ∈ calendarLines cal n1, bytesStart dtStampHdr l →
          l = dtStampHdr ++ format_timestamp t)
    ∧ (cal.created = none →
      List.Forall₂
        (fun a b => a = b ∨ (bytesStart dtStampHdr a ∧ bytesStart dtStampHdr b))
        (calendarLines cal n1) (calendarLines cal n2)) := by
  constructor
  · intro hc
    have hlines : calendarLines cal n1 = calendarLines cal n2 := by
      rw [calendarLines_eq _ _ h255, calendarLines_eq _ _ h255, hc]
      simp [eventLines, dtStampLine]
    refine ⟨by rw [renderCalendar, renderCalendar, hlines], ?_⟩
    rw [calendarLines_eq _ _ h255]
    intro l hl hstart
    rw [List.mem_append] at hl
    rcases hl with hl | hl
    · rw [List.mem_append] at hl
      rcases hl with hl | hl
      · exfalso
        have hnp : ∀ x ∈ preambleLines, ¬ bytesStart dtStampHdr x := by decide
        exact hnp l hl hstart
      · rw [List.mem_flatten] at hl
        obtain ⟨blk, hblk, hlblk⟩ := hl
        rw [List.mem_map] at hblk
        obtain ⟨r, hr, rfl⟩ := hblk
        rw [hc] at hlblk
        rw [List.mem_append] at hlblk
        rcases hlblk with hm | hm
        · simp only [eventLines, List.mem_cons, List.not_mem_nil,
            or_false] at hm
          rcases hm with rfl | rfl | rfl | rfl | rfl | rfl | rfl | rfl | rfl
          · exact absurd hstart (by decide)
          · exfalso
            rw [dtEndLine, bytesStart_hdr_append _ _ (by decide)] at hstart
            exact absurd hstart (by decide)
          · rw [dtStampLine]
            rfl
          · exfalso
            rw [dtStartLine, bytesStart_hdr_append _ _ (by decide)] at hstart
            exact absurd hstart (by decide)
          · exfalso
            rw [summaryLine] at hstart
            simp only [List.append_assoc] at hstart
            rw [bytesStart_hdr_append _ _ (by decide)] at hstart
            exact absurd hstart (by decide)
          · exact absurd hstart (by decide)
          · exfalso
            rw [uidLine] at hstart
            simp only [List.append_assoc] at hstart
            rw [bytesStart_hdr_append _ _ (by decide)] at hstart
            exact absurd hstart (by decide)
          · exact absurd hstart (by decide)
          · exact absurd hstart (by decide)
        · rw [List.mem_singleton] at hm
          subst hm
          exact absurd hstart (by decide)
    · rw [List.mem_singleton] at hl
      subst hl
      exact absurd hstart (by decide)
  · intro hc
    rw [calendarLines_eq _ _ h255, calendarLines_eq _ _ h255, hc]
    refine List.rel_append (List.rel_append ?_ ?_) ?_
    · exact List.forall₂_same.mpr (fun x _ => Or.inl rfl)
    · induction cal.delivery_dates with
      | nil => exact List.Forall₂.nil
      | cons r rs ih =>
        simp only [List.map_cons, List.flatten_cons]
        refine List.rel_append ?_ ih
        refine List.rel_append ?_
          (List.forall₂_same.mpr (fun x _ => Or.inl rfl))
        simp only [eventLines]
        refine List.Forall₂.cons (Or.inl rfl) ?_
        refine List.Forall₂.cons (Or.inl rfl) ?_
        refine List.Forall₂.cons (Or.inr ⟨?_, ?_⟩)
          (List.forall₂_same.mpr (fun x _ => Or.inl rfl))
        · rw [dtStampLine]
          exact (bytesStart_hdr_append _ _ (by decide)).mpr (by decide)
        · rw [dtStampLine]
          exact (bytesStart_hdr_append _ _ (by decide)).mpr (by decide)
    · exact List.forall₂_same.mpr (fun x _ => Or.inl rfl)

/-- C9 (witness): the one-record calendar with its fixed creation timestamp
renders identically under two different wall-clock readings. -/
theorem c9_dtstamp_determinism_witness :
    renderCalendar witCal witNow = renderCalendar witCal witNow2 :=
  ((c9_dtstamp_determinism witCal ⟨⟨1970, 8, 13⟩, 0, 0, 0⟩ witNow witNow2
      (by decide)).1 rfl).1

/-- C10: for a calendar with at least one record, the raw logical-line
stream of the calendar iterator carries exactly one extra empty logical
line immediately after each event block's END:VEVENT line; the empty
content line renders to zero physical lines, so the rendered document
equals the rendering of the preamble, the event blocks and the terminator
alone. -/
theorem c10_blank_line_after_events (cal : Calendar) (now : Timestamp)
    (hne : cal.delivery_dates ≠ []) (h255 : cal.delivery_dates.length ≤ 255) :
    calendarLines cal now
      = preambleLines
        ++ (cal.delivery_dates.map
              (fun r => eventLines cal.created now r ++ [[]])).flatten
        ++ [endVcalendarLine]
    ∧ foldContentLine [] = []
    ∧ renderCalendar cal now
      = ((preambleLines
          ++ (cal.delivery_dates.map
                (fun r => eventLines cal.created now r)).flatten
          ++ [endVcalendarLine]).map foldContentLine).flatten := by
  refine ⟨calendarLines_eq cal now h255, rfl, ?_⟩
  rw [renderCalendar, calendarLines_eq cal now h255]
  simp only [List.map_append, List.flatten_append]
  congr 1
  congr 1
  induction cal.delivery_dates with
  | nil => rfl
  | cons r rs ih =>
    simp only [List.map_cons, List.flatten_cons, List.map_append,
      List.flatten_append, ih]
    congr 1
    simp only [List.map_append, List.flatten_append, List.map_cons,
      List.map_nil, List.flatten_cons, List.flatten_nil]
    simp [foldContentLine]

/-- C10 (witness): the blank-separator shape at the concrete one-record
calendar. -/
theorem c10_blank_line_after_events_witness :
    calendarLines witCal witNow
      = preambleLines
        ++ (witCal.delivery_dates.map
              (fun r => eventLines witCal.created witNow r ++ [[]])).flatten
        ++ [endVcalendarLine]
    ∧ foldContentLine [] = []
    ∧ renderCalendar witCal witNow
      = ((preambleLines
          ++ (witCal.delivery_dates.map
                (fun r => eventLines witCal.created witNow r)).flatten
          ++ [endVcalendarLine]).map foldContentLine).flatten :=
  c10_blank_line_after_events witCal witNow (by decide) (by decide)
